import Mathlib

/-!
A shallow embedding of the CSP engine in `csp_solver.py` (class `CSP`):
the constraint-graph data model, the AC-3 routines `revise` and
`inference`, and the backtracking search `backtrack` /
`backtracking_search`.

Modelling conventions:
* Variable names and domain values are Python ints, modelled as `Nat`.
  Python truthiness of a name is `(· ≠ 0)`; `not variable` on an
  `Option` name is true for `none` and for `some 0`.
* Python `dict`s (insertion-ordered, unique keys) are association lists
  `List (Nat × α)`; `lookupA` reads the first matching key and `updateA`
  overwrites the first matching key in place (appending when absent),
  which matches `d[k]` / `d[k] = v` on well-formed dicts.
* A `KeyError` that would escape a call is the `PRes.err` result;
  the `while`/recursion in `inference` and `backtrack` is driven by an
  explicit fuel parameter, with `none` meaning the fuel ran out (the
  termination theorem shows enough fuel always exists).
* `copy.deepcopy` / `{var: vals[:] ...}` are the identity on our
  immutable values, and mutation of `self.backtrack_count` /
  `self.backtrack_failure_count` is explicit state threading.
-/

abbrev Val := Nat
abbrev VName := Nat

/-- A working assignment: a dict mapping each variable to its current
working domain (`assignment` in the Python code). -/
abbrev Assignment := List (VName × List Val)

/-- A constraint table: the list of legal value pairs for one ordered
pair of variables (`self.constraints[i][j]`). -/
abbrev CTable := List (Val × Val)

/-- `self.constraints`: a dict from a variable to a dict from a second
variable to the table of legal value pairs. -/
abbrev CMap := List (VName × List (VName × CTable))

/-- Result of a Python call that may raise `KeyError`: `ok` is a normal
return, `err` is an escaping `KeyError`. -/
inductive PRes (α : Type) where
  | ok : α → PRes α
  | err : PRes α
deriving DecidableEq, Repr

/-- First-match lookup in an insertion-ordered dict, `d[k]`
(`none` = `KeyError`). -/
def lookupA {α : Type} : List (Nat × α) → Nat → Option α
  | [], _ => none
  | (k, v) :: rest, key => if k = key then some v else lookupA rest key

/-- In-place overwrite of the first matching key, `d[k] = v`
(appends when the key is absent, as a Python dict would). -/
def updateA {α : Type} : List (Nat × α) → Nat → α → List (Nat × α)
  | [], key, val => [(key, val)]
  | (k, v) :: rest, key, val =>
    if k = key then (key, val) :: rest else (k, v) :: updateA rest key val

/-- The constraint graph object of class `CSP`, with its two mutable
search counters.  (`vars` embeds the field `self.variables`; the Python
name is a reserved word here.) -/
structure CSP where
  vars : List VName
  domains : Assignment
  constraints : CMap
  backtrack_count : Nat
  backtrack_failure_count : Nat
deriving DecidableEq, Repr

/-- `CSP.get_all_possible_pairs(a, b)`: the cross product of two value
lists as a list of pairs. -/
def get_all_possible_pairs (a b : List Val) : List (Val × Val) :=
  a.flatMap (fun x => b.map (fun y => (x, y)))

/-- `CSP.get_all_arcs()`: every pair `(i, j)` such that a table
`self.constraints[i][j]` exists, in dict insertion order. -/
def get_all_arcs (csp : CSP) : List (VName × VName) :=
  csp.constraints.flatMap (fun p => p.2.map (fun q => (p.1, q.1)))

/-- `CSP.get_all_neighboring_arcs(var)`: `[(i, var) for i in
self.constraints[var]]` (`none` = `KeyError` on a missing variable). -/
def get_all_neighboring_arcs (csp : CSP) (var : VName) :
    Option (List (VName × VName)) :=
  (lookupA csp.constraints var).map (fun inner => inner.map (fun q => (q.1, var)))

/-- The `for x in legal_values_i` loop of `CSP.revise`, with Python's
index-based list-iterator semantics under in-place `remove`: after the
yielded element is removed the iterator's cursor still advances, so the
element that slid into the current position is skipped.  `k` is the
iterator cursor, `n` a structural bound (`n ≥ li.length - k` at every
call), `al` is true when `i` and `j` are the same variable so that
`legal_values_j` aliases the mutating list. -/
def reviseLoop (tbl : CTable) (al : Bool) (lj : List Val) :
    Nat → List Val → Nat → Bool → (Bool × List Val)
  | 0, li, _, revised => (revised, li)
  | n + 1, li, k, revised =>
    if h : k < li.length then
      if (get_all_possible_pairs [li.get ⟨k, h⟩] (if al then li else lj)).any
          (fun p => decide (p ∈ tbl)) then
        reviseLoop tbl al lj n li (k + 1) revised
      else if li.erase (li.get ⟨k, h⟩) = [] then (true, li.erase (li.get ⟨k, h⟩))
      else reviseLoop tbl al lj n (li.erase (li.get ⟨k, h⟩)) (k + 1) true
    else (revised, li)

/-- `CSP.revise(assignment, i, j)`: remove from `i`'s working domain the
checked values with no supporting pair in `j`'s current working domain;
returns the `revised` flag and the updated assignment (`none` =
`KeyError`). -/
def revise (csp : CSP) (a : Assignment) (i j : VName) :
    Option (Bool × Assignment) :=
  match lookupA csp.constraints i with
  | none => none
  | some inner =>
    match lookupA inner j with
    | none => none
    | some tbl =>
      match lookupA a i, lookupA a j with
      | some li, some lj =>
        let r := reviseLoop tbl (i == j) lj li.length li 0 false
        some (r.1, updateA a i r.2)
      | _, _ => none

/-- Total size of the working domains in an assignment; the strictly
decreasing measure behind the termination proofs. -/
def sumLens (a : Assignment) : Nat :=
  (a.map (fun p => p.2.length)).sum

/-- Number of arcs of the graph. -/
def arcCount (csp : CSP) : Nat := (get_all_arcs csp).length

/-- A fuel amount provably sufficient for `inference` to drain its
queue (see the termination theorem). -/
def infFuelFor (csp : CSP) (a : Assignment) (q : List (VName × VName)) : Nat :=
  q.length + sumLens a * (arcCount csp + 1) + 1

/-- `CSP.inference(assignment, queue)`: the AC-3 worklist loop.  Note
that, as in the source, the emptiness test after a successful revision
reads the STATIC domain `self.domains[x_i]`, not the working domain. -/
def inference (csp : CSP) : Assignment → List (VName × VName) → Nat →
    Option (PRes (Bool × Assignment))
  | _, _, 0 => none
  | a, queue, fuel + 1 =>
    match queue with
    | [] => some (.ok (true, a))
    | (xi, xj) :: rest =>
      match revise csp a xi xj with
      | none => some .err
      | some (revised, a') =>
        if revised then
          match lookupA csp.domains xi with
          | none => some .err
          | some di =>
            if di = [] then some (.ok (false, a'))
            else
              match get_all_neighboring_arcs csp xi with
              | none => some .err
              | some nbrs =>
                let q' := nbrs.foldl
                  (fun q p =>
                    if p.1 = xj then q
                    else if (p.1, xi) ∈ q then q
                    else q ++ [(p.1, xi)]) rest
                inference csp a' q' fuel
        else inference csp a' rest fuel

/-- `CSP.select_unassigned_variable(assignment)`: the MRV heuristic —
`min` over the variables whose working domain has more than one value,
keyed by domain size, first minimum winning. -/
def select_unassigned_variable (a : Assignment) : Option VName :=
  let unassigned := (a.filter (fun p => 1 < p.2.length)).map (fun p => p.1)
  match unassigned with
  | [] => none
  | u :: us =>
    some (us.foldl
      (fun best k =>
        if ((lookupA a k).getD []).length < ((lookupA a best).getD []).length
        then k else best) u)

/-- Python truthiness of `variable` in `if not variable:` — `None` and
the int name `0` are both falsy. -/
def nameFalsy : Option VName → Bool
  | none => true
  | some v => v == 0

/-- The `for value in assignment[variable]` loop of `CSP.backtrack`,
parametrised by the recursive continuation `bt` (the `backtrack` call
at the next depth).  Threads the counter-carrying `CSP` state through
the iterations; a result that is Python-falsy (`None` or the empty
dict) does not stop the loop. -/
def backtrackLoop (bt : CSP → Assignment → Option (PRes (CSP × Option Assignment)))
    (csp : CSP) (a : Assignment) (v : VName) :
    List Val → Option (PRes (CSP × Option Assignment))
  | [] =>
    some (.ok ({ csp with
      backtrack_failure_count := csp.backtrack_failure_count + 1 }, none))
  | value :: vrest =>
    let copy := updateA a v [value]
    match get_all_neighboring_arcs csp v with
    | none => some .err
    | some nbrs =>
      match inference csp copy nbrs (infFuelFor csp copy nbrs) with
      | none => none
      | some .err => some .err
      | some (.ok (ib, copy')) =>
        if ib then
          match bt csp copy' with
          | none => none
          | some .err => some .err
          | some (.ok (csp', res)) =>
            match res with
            | some sol =>
              if sol.isEmpty then backtrackLoop bt csp' a v vrest
              else some (.ok (csp', some sol))
            | none => backtrackLoop bt csp' a v vrest
        else backtrackLoop bt csp a v vrest

/-- `CSP.backtrack(assignment)`: one search-tree node.  Increments
`backtrack_count`, selects an unassigned variable by MRV (with the
source's truthiness test `if not variable:`), and on the all-decided /
falsy branch returns failure exactly when some working domain is empty.
The fuel bounds the recursion depth. -/
def backtrack (csp : CSP) (a : Assignment) : Nat →
    Option (PRes (CSP × Option Assignment))
  | 0 => none
  | fuel + 1 =>
    let csp1 := { csp with backtrack_count := csp.backtrack_count + 1 }
    let vsel := select_unassigned_variable a
    if nameFalsy vsel then
      if a.any (fun p => p.2.isEmpty) then
        some (.ok ({ csp1 with
          backtrack_failure_count := csp1.backtrack_failure_count + 1 }, none))
      else some (.ok (csp1, some a))
    else
      match vsel with
      | none => some .err
      | some v =>
        match lookupA a v with
        | none => some .err
        | some vals =>
          backtrackLoop (fun c b => backtrack c b fuel) csp1 a v vals

/-- `CSP.backtracking_search()`: deep-copies the static domains into the
initial assignment, runs one global `inference` pass over all arcs
(result discarded, assignment kept), then calls `backtrack`. -/
def backtracking_search (csp : CSP) (fuel : Nat) :
    Option (PRes (CSP × Option Assignment)) :=
  let a := csp.domains
  let arcs := get_all_arcs csp
  match inference csp a arcs (infFuelFor csp a arcs) with
  | none => none
  | some .err => some .err
  | some (.ok (_, a')) => backtrack csp a' fuel

instance : DecidableEq (Option Assignment) :=
  @Option.instDecidableEq _ inferInstance

instance : DecidableEq (Option (PRes (Bool × Assignment))) :=
  @Option.instDecidableEq _ inferInstance

instance : DecidableEq (Option (PRes (CSP × Option Assignment))) :=
  @Option.instDecidableEq _ inferInstance

/-- Table lookup for the ordered pair `(i, j)`:
`self.constraints[i][j]` as a single partial lookup. -/
def lookup2 (c : CMap) (i j : VName) : Option CTable :=
  (lookupA c i).bind (fun inner => lookupA inner j)

/-- Modelled from the spec's words for claim C1: a satisfying total
assignment picks one value per variable from its static domain and is
jointly legal under every stored constraint table. -/
def specSatisfying (csp : CSP) (f : VName → Val) : Prop :=
  (∀ v ∈ csp.vars, ∃ d, lookupA csp.domains v = some d ∧ f v ∈ d) ∧
  (∀ i j tbl, lookup2 csp.constraints i j = some tbl → (f i, f j) ∈ tbl)

/-- Decidable check that every stored constraint table has a stored
mirror with the pair components swapped. -/
def mirroredB (csp : CSP) : Bool :=
  (get_all_arcs csp).all (fun p =>
    match lookup2 csp.constraints p.1 p.2, lookup2 csp.constraints p.2 p.1 with
    | some tbl, some tbl2 =>
      tbl.all (fun q => decide ((q.2, q.1) ∈ tbl2)) &&
        tbl2.all (fun q => decide ((q.2, q.1) ∈ tbl))
    | _, _ => false)

/-- A mirrored, unsatisfiable two-variable graph: both constraint
tables are empty (as produced by `add_constraint_one_way` with an
always-false filter), so no pair of values is jointly legal. -/
def cspC1 : CSP :=
  { vars := [1, 2]
    domains := [(1, [10, 11]), (2, [20, 21])]
    constraints := [(1, [(2, [])]), (2, [(1, [])])]
    backtrack_count := 0
    backtrack_failure_count := 0 }

/-- The graph of spec scenario 3: two variables with one-value domains
and a not-equal constraint, i.e. both filtered tables are empty. -/
def cspC4 : CSP :=
  { vars := [1, 2]
    domains := [(1, [5]), (2, [5])]
    constraints := [(1, [(2, [])]), (2, [(1, [])])]
    backtrack_count := 0
    backtrack_failure_count := 0 }

/-- A graph whose constraint tables are not mirrored: a table from
variable 2 to variable 1 is stored, but none from 1 to 2. -/
def cspC5 : CSP :=
  { vars := [1, 2]
    domains := [(1, [7]), (2, [8])]
    constraints := [(1, []), (2, [(1, [(8, 7)])])]
    backtrack_count := 0
    backtrack_failure_count := 0 }

/-- A one-variable constraint-free graph whose variable is the Python
int name `0`, which is falsy. -/
def cspC6 : CSP :=
  { vars := [0]
    domains := [(0, [1, 2])]
    constraints := [(0, [])]
    backtrack_count := 0
    backtrack_failure_count := 0 }

/-- Claim C1 (code bug): on the mirrored graph `cspC1` no satisfying
assignment exists (its constraint tables are empty), yet
`backtracking_search` returns a non-failure assignment
`{1: [11], 2: [21]}` instead of the failure value `None`.  The cause
is the `for x in legal_values_i` loop of `revise` mutating the list it
iterates, which skips (and so never deletes) the value after each
removed one, against `revise`'s own docstring. -/
theorem c1_backtracking_search_nonfailure_on_unsat :
    mirroredB cspC1 = true ∧
    (¬ ∃ f, specSatisfying cspC1 f) ∧
    backtracking_search cspC1 5 =
      some (.ok ({ cspC1 with backtrack_count := 1 },
        some [(1, [11]), (2, [21])])) := by
  refine ⟨by decide, ?_, by rfl⟩
  rintro ⟨f, -, hcon⟩
  have h : (f 1, f 2) ∈ ([] : CTable) := hcon 1 2 [] rfl
  exact absurd h (List.not_mem_nil _)

/-- Claim C2 (code bug): the non-failure assignment returned by
`backtracking_search` on `cspC1` gives variables 1 and 2 the single
values 11 and 21, but the stored table for the pair `(1, 2)` is the
empty table, so the returned values do not satisfy it. -/
theorem c2_returned_solution_violates_stored_table :
    backtracking_search cspC1 5 =
      some (.ok ({ cspC1 with backtrack_count := 1 },
        some [(1, [11]), (2, [21])])) ∧
    lookupA [(1, [11]), (2, [21])] 1 = some [11] ∧
    lookupA [(1, [11]), (2, [21])] 2 = some [21] ∧
    lookup2 cspC1.constraints 1 2 = some [] ∧
    ((11, 21) : Val × Val) ∉ ([] : CTable) :=
  ⟨rfl, rfl, rfl, rfl, by decide⟩

/-- Claim C3 (code bug): seeding `inference` with all arcs of `cspC1`
converges to working domains `{1: [11], 2: [21]}`, but the remaining
value 11 of variable 1 has no supporting value in variable 2's
remaining domain under the stored (empty) table for `(1, 2)` — the
mutation-during-iteration slip in `revise` skipped value 11. -/
theorem c3_inference_leaves_unsupported_value :
    inference cspC1 cspC1.domains (get_all_arcs cspC1) 50 =
      some (.ok (true, [(1, [11]), (2, [21])])) ∧
    lookup2 cspC1.constraints 1 2 = some [] ∧
    ¬ ∃ y, y ∈ [21] ∧ ((11, y) : Val × Val) ∈ ([] : CTable) :=
  ⟨rfl, rfl, by rintro ⟨y, -, h⟩; exact absurd h (List.not_mem_nil _)⟩

/-- Claim C4 (code bug): on `cspC4`, revising the arc `(1, 2)` empties
variable 1's working domain, yet `inference` keeps running and returns
`true` with both working domains empty — because line 194 of the
source tests the static `self.domains[x_i]` (still `[5]`) instead of
the working domain `assignment[x_i]`. -/
theorem c4_inference_true_despite_empty_working_domain :
    revise cspC4 cspC4.domains 1 2 = some (true, [(1, []), (2, [5])]) ∧
    lookupA cspC4.domains 1 = some [5] ∧
    inference cspC4 cspC4.domains (get_all_arcs cspC4) 50 =
      some (.ok (true, [(1, []), (2, [])])) :=
  ⟨rfl, rfl, rfl⟩

/-- Claim C5 counterexample: in the non-mirrored graph `cspC5` a
constraint table from variable 2 to variable 1 is stored, yet
`get_all_neighboring_arcs 1` returns the empty list — the arc `(2, 1)`
predicted by the claim is missing, because the source enumerates the
keys of `constraints[1]` (tables FROM 1), not tables INTO 1. -/
theorem c5_neighboring_arcs_misses_incoming_arc :
    ∃ res, get_all_neighboring_arcs cspC5 1 = some res ∧
      ((2, 1) : VName × VName) ∉ res ∧
      lookup2 cspC5.constraints 2 1 = some [(8, 7)] :=
  ⟨[], rfl, by decide, rfl⟩

/-- Claim C6 (code bug): on `cspC6`, whose only variable is the falsy
Python name `0` with the two-value domain `[1, 2]`,
`backtracking_search` returns a non-failure assignment in which that
variable still has two candidate values — `if not variable:` in
`backtrack` confuses the falsy name with `None`. -/
theorem c6_ambiguous_assignment_returned :
    backtracking_search cspC6 5 =
      some (.ok ({ cspC6 with backtrack_count := 1 }, some [(0, [1, 2])])) ∧
    ∃ p, p ∈ ([(0, [1, 2])] : Assignment) ∧ 1 < p.2.length :=
  ⟨rfl, ⟨(0, [1, 2]), by decide, by decide⟩⟩

/-! Lemmas about the dict operations. -/

theorem lookupA_updateA_self {α : Type} (l : List (Nat × α)) (k : Nat) (v : α) :
    lookupA (updateA l k v) k = some v := by
  induction l with
  | nil => simp [updateA, lookupA]
  | cons p rest ih =>
    obtain ⟨pk, pv⟩ := p
    by_cases h : pk = k
    · simp [updateA, h, lookupA]
    · simp [updateA, h, lookupA, ih]

theorem updateA_lookup_self {α : Type} (l : List (Nat × α)) (k : Nat) (v : α)
    (h : lookupA l k = some v) : updateA l k v = l := by
  induction l with
  | nil => simp [lookupA] at h
  | cons p rest ih =>
    obtain ⟨pk, pv⟩ := p
    by_cases hk : pk = k
    · simp [lookupA, hk] at h
      simp [updateA, hk, h]
    · simp [lookupA, hk] at h
      simp [updateA, hk, ih h]

theorem lookupA_mem {α : Type} (l : List (Nat × α)) (k : Nat) (v : α)
    (h : lookupA l k = some v) : (k, v) ∈ l := by
  induction l with
  | nil => simp [lookupA] at h
  | cons p rest ih =>
    obtain ⟨pk, pv⟩ := p
    by_cases hk : pk = k
    · simp [lookupA, hk] at h
      simp [hk, h]
    · simp [lookupA, hk] at h
      exact List.mem_cons_of_mem _ (ih h)

theorem mem_lookupA_of_nodup {α : Type} (l : List (Nat × α))
    (hnd : (l.map Prod.fst).Nodup) (p : Nat × α) (hp : p ∈ l) :
    lookupA l p.1 = some p.2 := by
  induction l with
  | nil => simp at hp
  | cons q rest ih =>
    obtain ⟨qk, qv⟩ := q
    simp only [List.map_cons, List.nodup_cons] at hnd
    rcases List.mem_cons.1 hp with h | h
    · subst h
      simp [lookupA]
    · have hne : qk ≠ p.1 := by
        intro he
        exact hnd.1 (he ▸ List.mem_map_of_mem Prod.fst h)
      simp [lookupA, hne]
      exact ih hnd.2 h

theorem updateA_keys {α : Type} (l : List (Nat × α)) (k : Nat) (v v0 : α)
    (h : lookupA l k = some v0) :
    (updateA l k v).map Prod.fst = l.map Prod.fst := by
  induction l with
  | nil => simp [lookupA] at h
  | cons p rest ih =>
    obtain ⟨pk, pv⟩ := p
    by_cases hk : pk = k
    · simp [updateA, hk]
    · simp [lookupA, hk] at h
      simp [updateA, hk, ih h]

/-! The pointwise-shrink order on assignments: same variables in the
same dict order, each working domain a sublist of the old one. -/

/-- Relation `AShrink a2 a1` : assignment `a2` is `a1` with each working
domain replaced by one of its sublists. -/
def AShrink (a2 a1 : Assignment) : Prop :=
  List.Forall₂ (fun p q => p.1 = q.1 ∧ p.2.Sublist q.2) a2 a1

theorem aShrink_refl (a : Assignment) : AShrink a a := by
  induction a with
  | nil => exact List.Forall₂.nil
  | cons p rest ih => exact List.Forall₂.cons ⟨rfl, List.Sublist.refl _⟩ ih

theorem aShrink_trans {a3 a2 a1 : Assignment}
    (h32 : AShrink a3 a2) (h21 : AShrink a2 a1) : AShrink a3 a1 := by
  induction h32 generalizing a1 with
  | nil =>
    cases h21
    exact List.Forall₂.nil
  | cons hpq _ ih =>
    cases h21 with
    | cons hqr hrest =>
      exact List.Forall₂.cons ⟨hpq.1.trans hqr.1, hpq.2.trans hqr.2⟩ (ih hrest)

theorem aShrink_keys_eq {a2 a1 : Assignment} (h : AShrink a2 a1) :
    a2.map Prod.fst = a1.map Prod.fst := by
  induction h with
  | nil => simp
  | cons hpq _ ih => simp [hpq.1, ih]

theorem aShrink_sumLens_le {a2 a1 : Assignment} (h : AShrink a2 a1) :
    sumLens a2 ≤ sumLens a1 := by
  induction h with
  | nil => simp [sumLens]
  | cons hpq _ ih =>
    simp only [sumLens, List.map_cons, List.sum_cons]
    exact Nat.add_le_add hpq.2.length_le ih

theorem aShrink_lookupA_some {a2 a1 : Assignment} (h : AShrink a2 a1)
    (v : VName) (l : List Val) (hl : lookupA a1 v = some l) :
    ∃ l2, lookupA a2 v = some l2 ∧ l2.Sublist l := by
  induction h with
  | nil => simp [lookupA] at hl
  | @cons p q a2' a1' hpq _ ih =>
    obtain ⟨pk, pv⟩ := p
    obtain ⟨qk, qv⟩ := q
    obtain ⟨he, hsub⟩ := hpq
    simp only at he hsub
    subst he
    by_cases hk : pk = v
    · simp [lookupA, hk] at hl ⊢
      exact hl ▸ hsub
    · simp [lookupA, hk] at hl ⊢
      exact ih hl

theorem aShrink_updateA {a : Assignment} {i : VName} {li li' : List Val}
    (h : lookupA a i = some li) (hs : li'.Sublist li) :
    AShrink (updateA a i li') a := by
  induction a with
  | nil => simp [lookupA] at h
  | cons p rest ih =>
    obtain ⟨pk, pv⟩ := p
    by_cases hk : pk = i
    · simp [lookupA, hk] at h
      simp only [updateA, hk, if_pos]
      exact List.Forall₂.cons ⟨hk.symm ▸ rfl, h ▸ hs⟩ (aShrink_refl rest)
    · simp [lookupA, hk] at h
      simp only [updateA, hk, if_neg, ite_false]
      exact List.Forall₂.cons ⟨rfl, List.Sublist.refl _⟩ (ih h)

theorem sumLens_updateA_lt {a : Assignment} {i : VName} {li li' : List Val}
    (h : lookupA a i = some li) (hlt : li'.length < li.length) :
    sumLens (updateA a i li') < sumLens a := by
  induction a with
  | nil => simp [lookupA] at h
  | cons p rest ih =>
    obtain ⟨pk, pv⟩ := p
    by_cases hk : pk = i
    · simp [lookupA, hk] at h
      simp only [updateA, hk, if_pos, sumLens, List.map_cons, List.sum_cons]
      have : li'.length < pv.length := h ▸ hlt
      omega
    · simp [lookupA, hk] at h
      simp only [updateA, hk, if_neg, ite_false, sumLens, List.map_cons,
        List.sum_cons]
      have := ih h
      simp only [sumLens] at this
      omega

/-! Lemmas about the revise loop. -/

theorem reviseLoop_sublist (tbl : CTable) (al : Bool) (lj : List Val)
    (n : Nat) (li : List Val) (k : Nat) (rev : Bool) :
    (reviseLoop tbl al lj n li k rev).2.Sublist li := by
  induction n, li, k, rev using reviseLoop.induct tbl al lj with
  | case1 li k rev => simp [reviseLoop]
  | case2 n li k rev h hany ih =>
    simp only [reviseLoop]
    rw [dif_pos h, if_pos hany]
    exact ih
  | case3 n li k rev h hany herase =>
    simp only [reviseLoop]
    rw [dif_pos h, if_neg hany, if_pos herase]
    exact List.erase_sublist _ _
  | case4 n li k rev h hany herase ih =>
    simp only [reviseLoop]
    rw [dif_pos h, if_neg hany, if_neg herase]
    exact ih.trans (List.erase_sublist _ _)
  | case5 n li k rev h =>
    simp only [reviseLoop]
    rw [dif_neg h]

theorem reviseLoop_flag_true (tbl : CTable) (al : Bool) (lj : List Val)
    (n : Nat) (li : List Val) (k : Nat) (rev : Bool) (hrev : rev = true) :
    (reviseLoop tbl al lj n li k rev).1 = true := by
  induction n, li, k, rev using reviseLoop.induct tbl al lj with
  | case1 li k rev => simp [reviseLoop, hrev]
  | case2 n li k rev h hany ih =>
    simp only [reviseLoop]
    rw [dif_pos h, if_pos hany]
    exact ih hrev
  | case3 n li k rev h hany herase =>
    simp only [reviseLoop]
    rw [dif_pos h, if_neg hany, if_pos herase]
  | case4 n li k rev h hany herase ih =>
    simp only [reviseLoop]
    rw [dif_pos h, if_neg hany, if_neg herase]
    exact ih rfl
  | case5 n li k rev h =>
    simp only [reviseLoop]
    rw [dif_neg h]
    exact hrev

theorem reviseLoop_false_eq (tbl : CTable) (al : Bool) (lj : List Val)
    (n : Nat) (li : List Val) (k : Nat) (rev : Bool) (li2 : List Val)
    (hr : reviseLoop tbl al lj n li k rev = (false, li2)) : li2 = li := by
  induction n, li, k, rev using reviseLoop.induct tbl al lj with
  | case1 li k rev =>
    simp only [reviseLoop] at hr
    exact (Prod.mk.injEq _ _ _ _ ▸ hr).2.symm
  | case2 n li k rev h hany ih =>
    simp only [reviseLoop] at hr
    rw [dif_pos h, if_pos hany] at hr
    exact ih hr
  | case3 n li k rev h hany herase =>
    simp only [reviseLoop] at hr
    rw [dif_pos h, if_neg hany, if_pos herase] at hr
    simp at hr
  | case4 n li k rev h hany herase ih =>
    simp only [reviseLoop] at hr
    rw [dif_pos h, if_neg hany, if_neg herase] at hr
    have := reviseLoop_flag_true tbl al lj n (li.erase (li.get ⟨k, h⟩)) (k + 1)
      true rfl
    rw [hr] at this
    simp at this
  | case5 n li k rev h =>
    simp only [reviseLoop] at hr
    rw [dif_neg h] at hr
    exact (Prod.mk.injEq _ _ _ _ ▸ hr).2.symm

theorem reviseLoop_true_lt (tbl : CTable) (al : Bool) (lj : List Val)
    (n : Nat) (li : List Val) (k : Nat) (rev : Bool) (li2 : List Val)
    (hr : reviseLoop tbl al lj n li k rev = (true, li2)) (hrev : rev = false) :
    li2.length < li.length := by
  induction n, li, k, rev using reviseLoop.induct tbl al lj with
  | case1 li k rev =>
    simp only [reviseLoop] at hr
    rw [hrev] at hr
    simp at hr
  | case2 n li k rev h hany ih =>
    simp only [reviseLoop] at hr
    rw [dif_pos h, if_pos hany] at hr
    exact ih hr hrev
  | case3 n li k rev h hany herase =>
    simp only [reviseLoop] at hr
    rw [dif_pos h, if_neg hany, if_pos herase] at hr
    have hmem : li.get ⟨k, h⟩ ∈ li := li.get_mem k h
    have herl : (li.erase (li.get ⟨k, h⟩)).length = li.length - 1 :=
      List.length_erase_of_mem hmem
    simp only [Prod.mk.injEq, true_and] at hr
    rw [← hr, herl]
    omega
  | case4 n li k rev h hany herase ih =>
    simp only [reviseLoop] at hr
    rw [dif_pos h, if_neg hany, if_neg herase] at hr
    have hsub := reviseLoop_sublist tbl al lj n (li.erase (li.get ⟨k, h⟩))
      (k + 1) true
    rw [hr] at hsub
    have hle := hsub.length_le
    simp only at hle
    have hmem : li.get ⟨k, h⟩ ∈ li := li.get_mem k h
    have herl : (li.erase (li.get ⟨k, h⟩)).length = li.length - 1 :=
      List.length_erase_of_mem hmem
    omega
  | case5 n li k rev h =>
    simp only [reviseLoop] at hr
    rw [dif_neg h, hrev] at hr
    simp at hr

theorem reviseLoop_removed_unsupported (tbl : CTable) (lj : List Val)
    (n : Nat) (li : List Val) (k : Nat) (rev : Bool) (x : Val)
    (hx : x ∈ li) (hnx : x ∉ (reviseLoop tbl false lj n li k rev).2) :
    ∀ y ∈ lj, (x, y) ∉ tbl := by
  induction n, li, k, rev using reviseLoop.induct tbl false lj with
  | case1 li k rev =>
    simp only [reviseLoop] at hnx
    exact absurd hx hnx
  | case2 n li k rev h hany ih =>
    simp only [reviseLoop] at hnx
    rw [dif_pos h, if_pos hany] at hnx
    exact ih hx hnx
  | case3 n li k rev h hany herase =>
    by_cases hxx : x = li.get ⟨k, h⟩
    · intro y hy hmem
      apply hany
      simp only [get_all_possible_pairs, List.any_eq_true]
      refine ⟨(x, y), ?_, by simpa using hmem⟩
      simp only [List.flatMap_cons, List.flatMap_nil, List.append_nil,
        List.mem_map, if_neg]
      exact ⟨y, hy, by rw [hxx]⟩
    · have hxe : x ∈ li.erase (li.get ⟨k, h⟩) := (List.mem_erase_of_ne hxx).2 hx
      rw [herase] at hxe
      simp at hxe
  | case4 n li k rev h hany herase ih =>
    by_cases hxx : x = li.get ⟨k, h⟩
    · intro y hy hmem
      apply hany
      simp only [get_all_possible_pairs, List.any_eq_true]
      refine ⟨(x, y), ?_, by simpa using hmem⟩
      simp only [List.flatMap_cons, List.flatMap_nil, List.append_nil,
        List.mem_map, if_neg]
      exact ⟨y, hy, by rw [hxx]⟩
    · have hxe : x ∈ li.erase (li.get ⟨k, h⟩) := (List.mem_erase_of_ne hxx).2 hx
      simp only [reviseLoop] at hnx
      rw [dif_pos h, if_neg hany, if_neg herase] at hnx
      exact ih hxe hnx
  | case5 n li k rev h =>
    simp only [reviseLoop] at hnx
    rw [dif_neg h] at hnx
    exact absurd hx hnx

/-! Lemmas about revise. -/

theorem revise_inv (csp : CSP) (a : Assignment) (i j : VName) (b : Bool)
    (a' : Assignment) (h : revise csp a i j = some (b, a')) :
    ∃ inner tbl li lj, lookupA csp.constraints i = some inner ∧
      lookupA inner j = some tbl ∧ lookupA a i = some li ∧
      lookupA a j = some lj ∧
      b = (reviseLoop tbl (i == j) lj li.length li 0 false).1 ∧
      a' = updateA a i (reviseLoop tbl (i == j) lj li.length li 0 false).2 := by
  unfold revise at h
  split at h
  · exact Option.noConfusion h
  · split at h
    · exact Option.noConfusion h
    · split at h
      · next li lj hi hj =>
        rename_i x1 inner hc x2 tbl ht x3 x4
        simp only [Option.some.injEq, Prod.mk.injEq] at h
        exact ⟨inner, tbl, li, lj, hc, ht, hi, hj, h.1.symm, h.2.symm⟩
      · exact Option.noConfusion h

theorem revise_shrink (csp : CSP) (a : Assignment) (i j : VName) (b : Bool)
    (a' : Assignment) (h : revise csp a i j = some (b, a')) : AShrink a' a := by
  obtain ⟨inner, tbl, li, lj, -, -, hi, -, -, ha'⟩ := revise_inv csp a i j b a' h
  rw [ha']
  exact aShrink_updateA hi (reviseLoop_sublist tbl (i == j) lj li.length li 0 false)

theorem revise_false_eq (csp : CSP) (a : Assignment) (i j : VName)
    (a' : Assignment) (h : revise csp a i j = some (false, a')) : a' = a := by
  obtain ⟨inner, tbl, li, lj, -, -, hi, -, hb, ha'⟩ := revise_inv csp a i j false a' h
  have heq : reviseLoop tbl (i == j) lj li.length li 0 false =
      ((reviseLoop tbl (i == j) lj li.length li 0 false).1,
        (reviseLoop tbl (i == j) lj li.length li 0 false).2) := rfl
  rw [← hb] at heq
  have h2 := reviseLoop_false_eq tbl (i == j) lj li.length li 0 false _ heq
  rw [ha', h2]
  exact updateA_lookup_self a i li hi

theorem revise_true_sumLens (csp : CSP) (a : Assignment) (i j : VName)
    (a' : Assignment) (h : revise csp a i j = some (true, a')) :
    sumLens a' < sumLens a := by
  obtain ⟨inner, tbl, li, lj, -, -, hi, -, hb, ha'⟩ := revise_inv csp a i j true a' h
  have heq : reviseLoop tbl (i == j) lj li.length li 0 false =
      ((reviseLoop tbl (i == j) lj li.length li 0 false).1,
        (reviseLoop tbl (i == j) lj li.length li 0 false).2) := rfl
  rw [← hb] at heq
  have h2 := reviseLoop_true_lt tbl (i == j) lj li.length li 0 false _ heq rfl
  rw [ha']
  exact sumLens_updateA_lt hi h2

/-! Lemmas about inference. -/

theorem inference_shrink (csp : CSP) : ∀ (f : Nat) (a : Assignment)
    (q : List (VName × VName)) (b : Bool) (a' : Assignment),
    inference csp a q f = some (.ok (b, a')) → AShrink a' a := by
  intro f
  induction f with
  | zero =>
    intro a q b a' h
    exact Option.noConfusion h
  | succ f ih =>
    intro a q b a' h
    cases q with
    | nil =>
      simp only [inference, Option.some.injEq, PRes.ok.injEq, Prod.mk.injEq] at h
      rw [← h.2]
      exact aShrink_refl a
    | cons arc rest =>
      obtain ⟨xi, xj⟩ := arc
      simp only [inference] at h
      split at h
      · simp at h
      · next revised a1 hr =>
        have hs1 : AShrink a1 a := revise_shrink csp a xi xj revised a1 hr
        cases revised with
        | false =>
          rw [if_neg Bool.false_ne_true] at h
          exact aShrink_trans (ih a1 rest b a' h) hs1
        | true =>
          rw [if_pos rfl] at h
          split at h
          · simp at h
          · next di hd =>
            split at h
            · simp only [Option.some.injEq, PRes.ok.injEq, Prod.mk.injEq] at h
              rw [← h.2]
              exact hs1
            · split at h
              · simp at h
              · next nbrs hn =>
                exact aShrink_trans (ih a1 _ b a' h) hs1

theorem foldl_enqueue_length (xi xj : VName) (xs : List (VName × VName)) :
    ∀ q : List (VName × VName),
    (xs.foldl (fun q p =>
      if p.1 = xj then q
      else if (p.1, xi) ∈ q then q
      else q ++ [(p.1, xi)]) q).length ≤ q.length + xs.length := by
  induction xs with
  | nil => intro q; simp
  | cons p rest ih =>
    intro q
    simp only [List.foldl_cons]
    have hstep : (if p.1 = xj then q
        else if (p.1, xi) ∈ q then q
        else q ++ [(p.1, xi)]).length ≤ q.length + 1 := by
      split
      · omega
      · split
        · omega
        · simp
    refine le_trans (ih _) ?_
    simp only [List.length_cons]
    omega

theorem nbrs_le_arcCount (csp : CSP) (xi : VName) (nbrs : List (VName × VName))
    (h : get_all_neighboring_arcs csp xi = some nbrs) :
    nbrs.length ≤ arcCount csp := by
  unfold get_all_neighboring_arcs at h
  cases hc : lookupA csp.constraints xi with
  | none => rw [hc] at h; exact Option.noConfusion h
  | some inner =>
    rw [hc] at h
    simp at h
    have hlen : nbrs.length = inner.length := by rw [← h]; simp
    have hmem : (xi, inner) ∈ csp.constraints := lookupA_mem _ _ _ hc
    have harc : arcCount csp =
        (csp.constraints.map (fun p => p.2.length)).sum := by
      simp only [arcCount, get_all_arcs, List.length_flatMap]
      congr 1
      simp
    have hle : inner.length ≤ (csp.constraints.map (fun p => p.2.length)).sum := by
      apply List.single_le_sum (by intro x _; omega)
      exact List.mem_map_of_mem (fun p => p.2.length) hmem
    omega

theorem inference_isSome (csp : CSP) : ∀ (f : Nat) (a : Assignment)
    (q : List (VName × VName)),
    q.length + sumLens a * (arcCount csp + 1) < f →
    (inference csp a q f).isSome := by
  intro f
  induction f with
  | zero =>
    intro a q h
    exact absurd h (Nat.not_lt_zero _)
  | succ f ih =>
    intro a q hf
    cases q with
    | nil => simp [inference]
    | cons arc rest =>
      obtain ⟨xi, xj⟩ := arc
      simp only [inference]
      split
      · simp
      · next revised a1 hr =>
        cases revised with
        | false =>
          rw [if_neg Bool.false_ne_true]
          have ha1 : a1 = a := revise_false_eq csp a xi xj a1 hr
          apply ih
          rw [ha1]
          simp only [List.length_cons] at hf
          omega
        | true =>
          rw [if_pos rfl]
          split
          · simp
          · next di hd =>
            split
            · simp
            · split
              · simp
              · next nbrs hn =>
                apply ih
                have hq' := foldl_enqueue_length xi xj nbrs rest
                have hnb := nbrs_le_arcCount csp xi nbrs hn
                have hs1 : sumLens a1 < sumLens a :=
                  revise_true_sumLens csp a xi xj a1 hr
                have hmul : sumLens a1 * (arcCount csp + 1) + (arcCount csp + 1) ≤
                    sumLens a * (arcCount csp + 1) := by
                  have h1 : sumLens a1 + 1 ≤ sumLens a := hs1
                  have h2 := Nat.mul_le_mul_right (arcCount csp + 1) h1
                  rw [Nat.succ_mul] at h2
                  exact h2
                simp only [List.length_cons] at hf
                omega

/-! Lemmas about variable selection. -/

theorem foldl_min_mem (a : Assignment) :
    ∀ (us : List VName) (u : VName),
    us.foldl (fun best k =>
      if ((lookupA a k).getD []).length < ((lookupA a best).getD []).length
      then k else best) u ∈ u :: us := by
  intro us
  induction us with
  | nil => intro u; simp
  | cons v rest ih =>
    intro u
    simp only [List.foldl_cons]
    rcases List.mem_cons.1 (ih (if ((lookupA a v).getD []).length <
        ((lookupA a u).getD []).length then v else u)) with h | h
    · rw [h]
      split
      · exact List.mem_cons_of_mem _ (List.mem_cons_self _ _)
      · exact List.mem_cons_self _ _
    · exact List.mem_cons_of_mem _ (List.mem_cons_of_mem _ h)

theorem select_some_inv (a : Assignment) (v : VName)
    (h : select_unassigned_variable a = some v) :
    ∃ p, p ∈ a ∧ p.1 = v ∧ 1 < p.2.length := by
  simp only [select_unassigned_variable] at h
  split at h
  · exact Option.noConfusion h
  · next u us hequ =>
    simp only [Option.some.injEq] at h
    have hv : v ∈ u :: us := h ▸ foldl_min_mem a us u
    rw [← hequ] at hv
    obtain ⟨p, hp, hpv⟩ := List.mem_map.1 hv
    have := List.mem_filter.1 hp
    exact ⟨p, this.1, hpv, by simpa using this.2⟩

/-! The frame relation for claim C10: the graph fields are unchanged and
the two counters never decrease. -/

/-- Relation `CFrame c c'` : state `c'` agrees with `c` on `vars`,
`domains` and `constraints`, and its two counters are at least those
of `c`. -/
def CFrame (c c' : CSP) : Prop :=
  c'.vars = c.vars ∧ c'.domains = c.domains ∧ c'.constraints = c.constraints ∧
  c.backtrack_count ≤ c'.backtrack_count ∧
  c.backtrack_failure_count ≤ c'.backtrack_failure_count

theorem cFrame_refl (c : CSP) : CFrame c c :=
  ⟨rfl, rfl, rfl, Nat.le_refl _, Nat.le_refl _⟩

theorem cFrame_trans {c1 c2 c3 : CSP} (h12 : CFrame c1 c2)
    (h23 : CFrame c2 c3) : CFrame c1 c3 :=
  ⟨h23.1.trans h12.1, h23.2.1.trans h12.2.1, h23.2.2.1.trans h12.2.2.1,
    h12.2.2.2.1.trans h23.2.2.2.1, h12.2.2.2.2.trans h23.2.2.2.2⟩

theorem backtrackLoop_frame
    (bt : CSP → Assignment → Option (PRes (CSP × Option Assignment)))
    (hbt : ∀ c b c2 res, bt c b = some (.ok (c2, res)) → CFrame c c2) :
    ∀ (vals : List Val) (csp : CSP) (a : Assignment) (v : VName)
    (c' : CSP) (res : Option Assignment),
    backtrackLoop bt csp a v vals = some (.ok (c', res)) → CFrame csp c' := by
  intro vals
  induction vals with
  | nil =>
    intro csp a v c' res h
    simp only [backtrackLoop, Option.some.injEq, PRes.ok.injEq,
      Prod.mk.injEq] at h
    rw [← h.1]
    exact ⟨rfl, rfl, rfl, Nat.le_refl _, Nat.le_succ _⟩
  | cons value vrest ih =>
    intro csp a v c' res h
    simp only [backtrackLoop] at h
    split at h
    · simp at h
    · next nbrs hn =>
      split at h
      · exact Option.noConfusion h
      · simp at h
      · next ib copy' hinf =>
        split at h
        · next hib =>
          split at h
          · exact Option.noConfusion h
          · simp at h
          · next csp2 res2 hbt2 =>
            have hf1 : CFrame csp csp2 := hbt csp copy' csp2 res2 hbt2
            split at h
            · next sol2 =>
              split at h
              · exact cFrame_trans hf1 (ih csp2 a v c' res h)
              · simp only [Option.some.injEq, PRes.ok.injEq, Prod.mk.injEq] at h
                rw [← h.1]
                exact hf1
            · exact cFrame_trans hf1 (ih csp2 a v c' res h)
        · exact ih csp a v c' res h

theorem backtrack_frame : ∀ (f : Nat) (csp : CSP) (a : Assignment)
    (c' : CSP) (res : Option Assignment),
    backtrack csp a f = some (.ok (c', res)) → CFrame csp c' := by
  intro f
  induction f with
  | zero => intro csp a c' res h; exact Option.noConfusion h
  | succ f ih =>
    intro csp a c' res h
    simp only [backtrack] at h
    split at h
    · split at h
      · simp only [Option.some.injEq, PRes.ok.injEq, Prod.mk.injEq] at h
        rw [← h.1]
        exact ⟨rfl, rfl, rfl, Nat.le_succ _, Nat.le_succ _⟩
      · simp only [Option.some.injEq, PRes.ok.injEq, Prod.mk.injEq] at h
        rw [← h.1]
        exact ⟨rfl, rfl, rfl, Nat.le_succ _, Nat.le_refl _⟩
    · split at h
      · simp at h
      · next v hv =>
        split at h
        · simp at h
        · next vals hvals =>
          have hloop := backtrackLoop_frame (fun c b => backtrack c b f)
            (fun c b c2 res2 h2 => ih c b c2 res2 h2) vals
            { csp with backtrack_count := csp.backtrack_count + 1 }
            a v c' res h
          refine cFrame_trans ?_ hloop
          exact ⟨rfl, rfl, rfl, Nat.le_succ _, Nat.le_refl _⟩

theorem backtracking_search_frame (csp : CSP) (f : Nat) (c' : CSP)
    (res : Option Assignment)
    (h : backtracking_search csp f = some (.ok (c', res))) : CFrame csp c' := by
  simp only [backtracking_search] at h
  split at h
  · exact Option.noConfusion h
  · simp at h
  · exact backtrack_frame f csp _ c' res h

theorem backtrackLoop_shrink
    (bt : CSP → Assignment → Option (PRes (CSP × Option Assignment)))
    (hbt : ∀ c b c2 sol, bt c b = some (.ok (c2, some sol)) → AShrink sol b) :
    ∀ (vals : List Val) (csp : CSP) (a : Assignment) (v : VName)
    (li : List Val) (hli : lookupA a v = some li)
    (hvals : ∀ x ∈ vals, x ∈ li) (c' : CSP) (sol : Assignment),
    backtrackLoop bt csp a v vals = some (.ok (c', some sol)) →
    AShrink sol a := by
  intro vals
  induction vals with
  | nil =>
    intro csp a v li hli hvals c' sol h
    simp [backtrackLoop] at h
  | cons value vrest ih =>
    intro csp a v li hli hvals c' sol h
    have hvmem : value ∈ li := hvals value (List.mem_cons_self _ _)
    have hcopy : AShrink (updateA a v [value]) a :=
      aShrink_updateA hli (List.singleton_sublist.2 hvmem)
    simp only [backtrackLoop] at h
    split at h
    · simp at h
    · next nbrs hn =>
      split at h
      · exact Option.noConfusion h
      · simp at h
      · next ib copy' hinf =>
        have hcopy' : AShrink copy' (updateA a v [value]) :=
          inference_shrink csp _ _ _ _ _ hinf
        split at h
        · next hib =>
          split at h
          · exact Option.noConfusion h
          · simp at h
          · next csp2 res2 hbt2 =>
            split at h
            · next sol2 =>
              split at h
              · exact ih csp2 a v li hli
                  (fun x hx => hvals x (List.mem_cons_of_mem _ hx)) c' sol h
              · simp only [Option.some.injEq, PRes.ok.injEq, Prod.mk.injEq,
                  Option.some.injEq] at h
                have hsol : AShrink sol2 copy' := hbt csp copy' csp2 sol2 hbt2
                rw [← h.2]
                exact aShrink_trans (aShrink_trans hsol hcopy') hcopy
            · exact ih csp2 a v li hli
                (fun x hx => hvals x (List.mem_cons_of_mem _ hx)) c' sol h
        · exact ih csp a v li hli
            (fun x hx => hvals x (List.mem_cons_of_mem _ hx)) c' sol h

theorem backtrack_shrink : ∀ (f : Nat) (csp : CSP) (a : Assignment)
    (c' : CSP) (sol : Assignment),
    backtrack csp a f = some (.ok (c', some sol)) → AShrink sol a := by
  intro f
  induction f with
  | zero => intro csp a c' sol h; exact Option.noConfusion h
  | succ f ih =>
    intro csp a c' sol h
    simp only [backtrack] at h
    split at h
    · split at h
      · simp only [Option.some.injEq, PRes.ok.injEq, Prod.mk.injEq] at h
        exact absurd h.2 (by simp)
      · simp only [Option.some.injEq, PRes.ok.injEq, Prod.mk.injEq,
          Option.some.injEq] at h
        rw [← h.2]
        exact aShrink_refl a
    · split at h
      · simp at h
      · next v hv =>
        split at h
        · simp at h
        · next vals hvals =>
          exact backtrackLoop_shrink (fun c b => backtrack c b f)
            (fun c b c2 sol2 h2 => ih c b c2 sol2 h2) vals _ a v vals hvals
            (fun x hx => hx) c' sol h

theorem backtracking_search_shrink (csp : CSP) (f : Nat) (c' : CSP)
    (sol : Assignment)
    (h : backtracking_search csp f = some (.ok (c', some sol))) :
    AShrink sol csp.domains := by
  simp only [backtracking_search] at h
  split at h
  · exact Option.noConfusion h
  · simp at h
  · next b a' hinf =>
    exact aShrink_trans (backtrack_shrink f csp a' c' sol h)
      (inference_shrink csp _ _ _ _ _ hinf)

theorem backtrackLoop_isSome
    (bt : CSP → Assignment → Option (PRes (CSP × Option Assignment)))
    (N : Nat)
    (hbt : ∀ c b, (b.map Prod.fst).Nodup → sumLens b < N → (bt c b).isSome) :
    ∀ (vals : List Val) (csp : CSP) (a : Assignment) (v : VName)
    (li : List Val),
    (a.map Prod.fst).Nodup → lookupA a v = some li → 1 < li.length →
    sumLens a ≤ N → (backtrackLoop bt csp a v vals).isSome := by
  intro vals
  induction vals with
  | nil =>
    intro csp a v li hnd hli hlen hsum
    simp [backtrackLoop]
  | cons value vrest ih =>
    intro csp a v li hnd hli hlen hsum
    simp only [backtrackLoop]
    split
    · simp
    · next nbrs hn =>
      have hsumcopy : sumLens (updateA a v [value]) < sumLens a :=
        sumLens_updateA_lt hli (by simp; omega)
      have hinf := inference_isSome csp (infFuelFor csp (updateA a v [value]) nbrs)
        (updateA a v [value]) nbrs (by simp [infFuelFor])
      split
      · next hnone =>
        rw [hnone] at hinf
        simp at hinf
      · simp
      · next ib copy' hok =>
        have hcopy' : AShrink copy' (updateA a v [value]) :=
          inference_shrink csp _ _ _ _ _ hok
        split
        · have hnd' : (copy'.map Prod.fst).Nodup := by
            rw [aShrink_keys_eq hcopy', updateA_keys a v [value] li hli]
            exact hnd
          have hsum' : sumLens copy' < N :=
            Nat.lt_of_le_of_lt (aShrink_sumLens_le hcopy')
              (Nat.lt_of_lt_of_le hsumcopy hsum)
          have hbt' := hbt csp copy' hnd' hsum'
          obtain ⟨r, hres⟩ := Option.isSome_iff_exists.1 hbt'
          rw [hres]
          cases r with
          | err => simp
          | ok pr =>
            obtain ⟨csp2, res2⟩ := pr
            cases res2 with
            | none => exact ih csp2 a v li hnd hli hlen hsum
            | some sol2 =>
              by_cases hemp : sol2.isEmpty
              · simp only [hemp, if_true]
                exact ih csp2 a v li hnd hli hlen hsum
              · simp [hemp]
        · exact ih csp a v li hnd hli hlen hsum

theorem backtrack_isSome : ∀ (f : Nat) (csp : CSP) (a : Assignment),
    (a.map Prod.fst).Nodup → sumLens a < f → (backtrack csp a f).isSome := by
  intro f
  induction f with
  | zero =>
    intro csp a hnd hlt
    exact absurd hlt (Nat.not_lt_zero _)
  | succ f ih =>
    intro csp a hnd hlt
    simp only [backtrack]
    split
    · split
      · simp
      · simp
    · split
      · simp
      · next v hv =>
        split
        · simp
        · next vals hvals =>
          obtain ⟨p, hpa, hpv, hplen⟩ := select_some_inv a v hv
          have hlook : lookupA a p.1 = some p.2 := mem_lookupA_of_nodup a hnd p hpa
          rw [hpv, hvals] at hlook
          have hvalslen : 1 < vals.length := by
            cases hlook
            exact hplen
          exact backtrackLoop_isSome (fun c b => backtrack c b f) f
            (fun c b hb hs => ih c b hb hs) vals _ a v vals hnd hvals hvalslen
            (Nat.le_of_lt_succ hlt)

theorem backtracking_search_isSome (csp : CSP)
    (hnd : (csp.domains.map Prod.fst).Nodup) :
    (backtracking_search csp (sumLens csp.domains + 1)).isSome := by
  have hinf := inference_isSome csp
    (infFuelFor csp csp.domains (get_all_arcs csp)) csp.domains
    (get_all_arcs csp) (by simp [infFuelFor])
  cases hr : inference csp csp.domains (get_all_arcs csp)
      (infFuelFor csp csp.domains (get_all_arcs csp)) with
  | none => rw [hr] at hinf; simp at hinf
  | some r =>
    cases r with
    | err =>
      simp only [backtracking_search]
      rw [hr]
      simp
    | ok pr =>
      obtain ⟨b, a'⟩ := pr
      have hshr := inference_shrink csp _ _ _ _ _ hr
      have hnd' : (a'.map Prod.fst).Nodup := by
        rw [aShrink_keys_eq hshr]
        exact hnd
      have hle : sumLens a' ≤ sumLens csp.domains := aShrink_sumLens_le hshr
      simp only [backtracking_search]
      rw [hr]
      exact backtrack_isSome (sumLens csp.domains + 1) csp a' hnd'
        (Nat.lt_of_le_of_lt hle (Nat.lt_succ_self _))

/-- Claim C5 as amended: `get_all_neighboring_arcs v` returns exactly
the ordered pairs `(k, v)` such that the graph stores a constraint
table from `v` to `k` (the keys of `constraints[v]`); on mirrored
graphs these coincide with the arcs whose table from `k` to `v`
exists, but on non-mirrored graphs the direction is `v` to `k`. -/
theorem c5_neighboring_arcs_characterization (csp : CSP) (v : VName)
    (inner : List (VName × CTable)) (res : List (VName × VName))
    (hc : lookupA csp.constraints v = some inner)
    (hres : get_all_neighboring_arcs csp v = some res) :
    ∀ k w, (k, w) ∈ res ↔ (w = v ∧ ∃ tbl, (k, tbl) ∈ inner) := by
  unfold get_all_neighboring_arcs at hres
  rw [hc] at hres
  simp only [Option.map, Option.some.injEq] at hres
  intro k w
  rw [← hres]
  constructor
  · intro hmem
    obtain ⟨q, hq, heq⟩ := List.mem_map.1 hmem
    have h1 : q.1 = k := (Prod.mk.injEq _ _ _ _ ▸ heq).1
    have h2 : v = w := (Prod.mk.injEq _ _ _ _ ▸ heq).2
    exact ⟨h2.symm, q.2, by rw [← h1]; exact hq⟩
  · rintro ⟨rfl, tbl, htbl⟩
    exact List.mem_map.2 ⟨(k, tbl), htbl, rfl⟩

/-- Witness for the amended claim C5 at the concrete graph `cspC5`:
`get_all_neighboring_arcs 2 = [(1, 2)]` and indeed a table from 2 to 1
is stored. -/
theorem c5_neighboring_arcs_characterization_witness :
    ((1, 2) : VName × VName) ∈ [((1 : VName), (2 : VName))] ↔
      ((2 : VName) = 2 ∧ ∃ tbl, ((1 : VName), tbl) ∈ [((1 : VName),
        ([(8, 7)] : CTable))]) :=
  c5_neighboring_arcs_characterization cspC5 2 [(1, [(8, 7)])] [(1, 2)]
    rfl rfl 1 2

/-- Claim C7: for an arc between two distinct variables, `revise` only
removes a value `x` of `i`'s working domain when no value `y` of `j`'s
current working domain (which `revise` does not modify) forms a pair
`(x, y)` in the stored table; values with a supporting pair survive. -/
theorem c7_revise_removes_only_unsupported (csp : CSP) (a : Assignment)
    (i j : VName) (b : Bool) (a' : Assignment) (li lj li' : List Val)
    (tbl : CTable) (hij : i ≠ j)
    (hcon : lookup2 csp.constraints i j = some tbl)
    (hli : lookupA a i = some li) (hlj : lookupA a j = some lj)
    (hrev : revise csp a i j = some (b, a'))
    (hli' : lookupA a' i = some li') :
    ∀ x, x ∈ li → x ∉ li' → ∀ y ∈ lj, (x, y) ∉ tbl := by
  obtain ⟨inner0, tbl0, li0, lj0, hc0, ht0, hi0, hj0, -, ha'⟩ :=
    revise_inv csp a i j b a' hrev
  have hcon2 : lookupA inner0 j = some tbl := by
    unfold lookup2 at hcon
    rw [hc0] at hcon
    exact hcon
  have htbl : tbl0 = tbl := by
    rw [ht0] at hcon2
    exact Option.some.inj hcon2
  have hli0 : li0 = li := by
    rw [hi0] at hli
    exact Option.some.inj hli
  have hlj0 : lj0 = lj := by
    rw [hj0] at hlj
    exact Option.some.inj hlj
  have hal : (i == j) = false := beq_eq_false_iff_ne.2 hij
  subst htbl
  subst hli0
  subst hlj0
  have hres : li' = (reviseLoop tbl0 (i == j) lj0 li0.length li0 0 false).2 := by
    rw [ha'] at hli'
    rw [lookupA_updateA_self] at hli'
    exact (Option.some.inj hli').symm
  rw [hal] at hres
  intro x hx hnx
  exact reviseLoop_removed_unsupported tbl0 lj0 li0.length li0 0 false x hx
    (hres ▸ hnx)

/-- Witness for claim C7: on `cspC4`, `revise 1 2` removes the value 5,
and indeed no pair `(5, y)` with `y` in variable 2's working domain is
in the (empty) stored table. -/
theorem c7_revise_removes_only_unsupported_witness :
    ((5 : Val), (5 : Val)) ∉ ([] : CTable) :=
  c7_revise_removes_only_unsupported cspC4 cspC4.domains 1 2 true
    [(1, []), (2, [5])] [5] [5] [] [] (by decide) rfl rfl rfl rfl rfl
    5 (by decide) (by decide) 5 (by decide)

/-- Claim C8: working domains only ever shrink, and stay subsequences
of the static domains.  `revise` and `inference` return assignments in
which every variable keeps its position and its working domain is a
sublist of what it was; a solution returned by `backtrack` is a
pointwise sublist of the assignment it was given; and a solution
returned by `backtracking_search` is a pointwise sublist of the
graph's static domains. -/
theorem c8_working_domains_shrink :
    (∀ (csp : CSP) (a : Assignment) (i j : VName) (b : Bool)
      (a' : Assignment), revise csp a i j = some (b, a') → AShrink a' a) ∧
    (∀ (csp : CSP) (f : Nat) (a : Assignment) (q : List (VName × VName))
      (b : Bool) (a' : Assignment),
      inference csp a q f = some (.ok (b, a')) → AShrink a' a) ∧
    (∀ (f : Nat) (csp : CSP) (a : Assignment) (c' : CSP) (sol : Assignment),
      backtrack csp a f = some (.ok (c', some sol)) → AShrink sol a) ∧
    (∀ (csp : CSP) (f : Nat) (c' : CSP) (sol : Assignment),
      backtracking_search csp f = some (.ok (c', some sol)) →
      AShrink sol csp.domains) :=
  ⟨revise_shrink,
   fun csp f a q b a' h => inference_shrink csp f a q b a' h,
   backtrack_shrink,
   backtracking_search_shrink⟩

/-- Witness for claim C8: the assignment returned by
`backtracking_search` on `cspC1` is a pointwise sublist of the static
domains of `cspC1`. -/
theorem c8_working_domains_shrink_witness :
    AShrink [(1, [11]), (2, [21])] cspC1.domains :=
  c8_working_domains_shrink.2.2.2 cspC1 5
    { cspC1 with backtrack_count := 1 } [(1, [11]), (2, [21])] rfl

/-- Claim C9: the arc-processing loop of `inference` always terminates
(an explicit fuel bound exists for every graph, assignment and queue —
even malformed ones, where it stops by raising), and `backtrack` /
`backtracking_search` terminate on every graph whose working assignment
is a well-formed dict (no duplicate keys, which a Python dict cannot
have). -/
theorem c9_termination :
    (∀ (csp : CSP) (a : Assignment) (q : List (VName × VName)),
      (inference csp a q (infFuelFor csp a q)).isSome) ∧
    (∀ (csp : CSP) (a : Assignment), (a.map Prod.fst).Nodup →
      (backtrack csp a (sumLens a + 1)).isSome) ∧
    (∀ csp : CSP, (csp.domains.map Prod.fst).Nodup →
      (backtracking_search csp (sumLens csp.domains + 1)).isSome) :=
  ⟨fun csp a q => inference_isSome csp _ a q (by simp [infFuelFor]),
   fun csp a hnd => backtrack_isSome _ csp a hnd (Nat.lt_succ_self _),
   fun csp hnd => backtracking_search_isSome csp hnd⟩

/-- Witness for claim C9: on the concrete graph `cspC1`, the explicit
fuel bound makes `backtracking_search` return. -/
theorem c9_termination_witness :
    (backtracking_search cspC1 (sumLens cspC1.domains + 1)).isSome :=
  c9_termination.2.2 cspC1 (by decide)

/-- Claim C10: a `backtrack` / `backtracking_search` call leaves the
graph fields (`variables`, `domains`, `constraints`) of the threaded
state unchanged, and only ever increases the two counters
`backtrack_count` and `backtrack_failure_count` (they are never reset,
so repeated calls accumulate). -/
theorem c10_search_read_only :
    (∀ (f : Nat) (csp : CSP) (a : Assignment) (c' : CSP)
      (res : Option Assignment),
      backtrack csp a f = some (.ok (c', res)) → CFrame csp c') ∧
    (∀ (csp : CSP) (f : Nat) (c' : CSP) (res : Option Assignment),
      backtracking_search csp f = some (.ok (c', res)) → CFrame csp c') :=
  ⟨backtrack_frame, backtracking_search_frame⟩

/-- Witness for claim C10: the state returned by `backtracking_search`
on `cspC1` keeps all graph fields and only bumps `backtrack_count`. -/
theorem c10_search_read_only_witness :
    CFrame cspC1 { cspC1 with backtrack_count := 1 } :=
  c10_search_read_only.2 cspC1 5 { cspC1 with backtrack_count := 1 }
    (some [(1, [11]), (2, [21])]) rfl
